import Mathlib

/-!
# RateLimiter (src/main.cpp): a shallow embedding

`template<int PARTITION> class RateLimiter` keeps two `std::array<int, PARTITION>`,
`partition_` (the quota, written only by the constructor) and `permits_` (the
remaining permits), plus `interval_ = 1000 / PARTITION`.

Modelling choices:

* C++ `int` and `long` values are unbounded `Int` (wrap-around is not
  modelled); `/` and `%` of C++ truncate towards zero, so they are `Int.tdiv`
  and `Int.tmod`.
* `PARTITION` is a `Nat` parameter of every operation (the template argument).
* A `std::array` is a `List Int`; a subscript outside the array and a division
  by zero are undefined behaviour and make the operation yield `none`
  (`Outcome.undefined` for `acquire`).
* `slot()` reads `steady_clock`; the reading in milliseconds is an explicit
  argument `ms`, one for every call of `slot()` in the source.
* The mutex makes every critical section atomic, so a critical section is one
  function from state to state.  A caller suspended in `cv_.wait` leaves the
  state unchanged (`Outcome.blocked`); each later evaluation of the wake
  predicate is one `acquireWake`.
-/

set_option linter.dupNamespace false

namespace RateLimiter

/-- Data members `partition_`, `permits_` and `interval_` of the class. -/
structure State where
  partition_ : List Int
  permits_ : List Int
  interval_ : Int
deriving DecidableEq, Repr

/-- Both arrays have `PARTITION` elements, as `std::array<int, PARTITION>` does. -/
def State.WF (PARTITION : Nat) (s : State) : Prop :=
  s.partition_.length = PARTITION ∧ s.permits_.length = PARTITION

/-- Subscript read `a[idx]` with an `int` index; `none` outside the array. -/
def readAt (a : List Int) (idx : Int) : Option Int :=
  if idx < 0 then none else a[idx.toNat]?

/-- Subscript write `a[idx] = v` with an `int` index; `none` outside the array. -/
def writeAt (a : List Int) (idx : Int) (v : Int) : Option (List Int) :=
  if idx < 0 ∨ a.length ≤ idx.toNat then none else some (a.set idx.toNat v)

/-- Statement `partition_[idx]++` of the constructor (line 23). -/
def incrAt (a : List Int) (idx : Int) : Option (List Int) :=
  match readAt a idx with
  | none => none
  | some v => writeAt a idx (v + 1)

/-- Sequence of subscripts `i * step`, `0 <= i < r`, visited by the constructor's
remainder loop (lines 18-25), in the order the loop visits them; empty when
`r` is zero (the `if (r)` guard) or negative (the loop condition `i < r`). -/
def remainderIndices (PARTITION : Nat) (permit : Int) : List Int :=
  let r := permit.tmod PARTITION
  if r ≠ 0 then
    let step := (PARTITION : Int).tdiv r
    (List.range r.toNat).map (fun (i : Nat) => (i : Int) * step)
  else []

/-- Constructor `RateLimiter(int permit)` (lines 12-27): every partition gets
`avg`, the remainder loop increments the partitions at `remainderIndices`, and
`permits_` starts as a copy of `partition_`.  The tick thread is not part of the
state. -/
def RateLimiter (PARTITION : Nat) (permit : Int) : Option State :=
  if PARTITION = 0 then none else
  let avg := permit.tdiv PARTITION
  let filled := List.replicate PARTITION avg
  match (remainderIndices PARTITION permit).foldlM incrAt filled with
  | none => none
  | some quota =>
    some { partition_ := quota, permits_ := quota, interval_ := (1000 : Int).tdiv PARTITION }

/-- Method `slot()` (lines 49-53) at clock reading `ms`:
`ms / interval_ % PARTITION`; `none` when `interval_` or `PARTITION` is zero. -/
def slot (PARTITION : Nat) (s : State) (ms : Int) : Option Int :=
  if s.interval_ = 0 ∨ PARTITION = 0 then none
  else some ((ms.tdiv s.interval_).tmod PARTITION)

/-- Result of one critical section of `acquire`: it returned after decrementing
`permits_[idx]` (the index is recorded for the statements below), it is
suspended in `cv_.wait` with the state unchanged, or it ran into undefined
behaviour. -/
inductive Outcome where
  | returned (s : State) (idx : Int)
  | blocked
  | undefined
deriving DecidableEq, Repr

/-- Statement `--permits_[idx]` (lines 60 and 69). -/
def decrement (s : State) (idx : Int) : Option State :=
  match readAt s.permits_ idx with
  | none => none
  | some v =>
    match writeAt s.permits_ idx (v - 1) with
    | none => none
    | some p => some { s with permits_ := p }

/-- Lines 64-69 of `acquire`: one evaluation of the wake predicate of
`cv_.wait` at clock reading `ms1`; when it holds, `slot()` is read again at
`ms2` and that entry is decremented. -/
def acquireWake (PARTITION : Nat) (s : State) (ms1 ms2 : Int) : Outcome :=
  match slot PARTITION s ms1 with
  | none => .undefined
  | some idx1 =>
    match readAt s.permits_ idx1 with
    | none => .undefined
    | some v =>
      if v > 0 then
        match slot PARTITION s ms2 with
        | none => .undefined
        | some idx2 =>
          match decrement s idx2 with
          | none => .undefined
          | some s2 => .returned s2 idx2
      else .blocked

/-- Method `acquire()` (lines 55-71).  `ms0` is the clock reading of line 56,
`ms1` that of the first evaluation of the wake predicate and `ms2` that of
line 68. -/
def acquire (PARTITION : Nat) (s : State) (ms0 ms1 ms2 : Int) : Outcome :=
  match slot PARTITION s ms0 with
  | none => .undefined
  | some idx =>
    match readAt s.permits_ idx with
    | none => .undefined
    | some v =>
      if v > 0 then
        match decrement s idx with
        | none => .undefined
        | some s1 => .returned s1 idx
      else acquireWake PARTITION s ms1 ms2

/-- Critical section of `tick` (lines 77-79): `permits_[idx] = partition_[idx]`. -/
def replenish (s : State) (idx : Int) : Option State :=
  match readAt s.partition_ idx with
  | none => none
  | some q =>
    match writeAt s.permits_ idx q with
    | none => none
    | some p => some { s with permits_ := p }

/-- Method `tick()` (lines 73-81) at clock reading `ms`; the sleep is not modelled. -/
def tick (PARTITION : Nat) (s : State) (ms : Int) : Option State :=
  match slot PARTITION s ms with
  | none => none
  | some idx => replenish s idx

/-- One step of an execution: a call of `acquire`, a later evaluation of the
wake predicate by a suspended caller, or a `tick` of the background thread. -/
inductive Event where
  | acquire (ms0 ms1 ms2 : Int)
  | wake (ms1 ms2 : Int)
  | tick (ms : Int)
deriving DecidableEq, Repr

/-- Index decremented by an outcome, if it returned. -/
def Outcome.granted : Outcome → Option Int
  | .returned _ idx => some idx
  | _ => none

/-- State after an outcome: the new state, the old one when the caller is
suspended, `none` on undefined behaviour. -/
def Outcome.next (s : State) : Outcome → Option State
  | .returned s1 _ => some s1
  | .blocked => some s
  | .undefined => none

/-- Outcome of the `acquire` code run by an event (`blocked` for a tick). -/
def Event.outcome (PARTITION : Nat) (s : State) : Event → Outcome
  | .acquire ms0 ms1 ms2 => RateLimiter.acquire PARTITION s ms0 ms1 ms2
  | .wake ms1 ms2 => acquireWake PARTITION s ms1 ms2
  | .tick _ => .blocked

/-- State after one event. -/
def step (PARTITION : Nat) (s : State) : Event → Option State
  | .tick ms => RateLimiter.tick PARTITION s ms
  | e => (e.outcome PARTITION s).next s

/-- State after a sequence of events. -/
def run (PARTITION : Nat) (s : State) : List Event → Option State
  | [] => some s
  | e :: es =>
    match step PARTITION s e with
    | none => none
    | some s1 => run PARTITION s1 es

/-- Number of `acquire` calls of a trace that completed by decrementing
`permits_[i]` since the last replenishment of partition `i` (or since the
start of the trace when there was none). -/
def grantsSinceReplenish (PARTITION : Nat) (i : Int) : State → List Event → Nat → Option Nat
  | _, [], n => some n
  | s, e :: es, n =>
    match step PARTITION s e with
    | none => none
    | some s1 =>
      match e with
      | .tick ms =>
        grantsSinceReplenish PARTITION i s1 es (if slot PARTITION s ms = some i then 0 else n)
      | _ =>
        grantsSinceReplenish PARTITION i s1 es
          (if (e.outcome PARTITION s).granted = some i then n + 1 else n)

/-- Frame of a completed `acquire`: from `s` to `t` the entry `permits_[idx]`
is lower by exactly one, every other entry of `permits_` is unchanged, and so
are `partition_` and `interval_`. -/
def DecrementsOnly (s t : State) (idx : Int) : Prop :=
  0 ≤ idx ∧ idx.toNat < s.permits_.length
  ∧ (∃ v : Int, s.permits_[idx.toNat]? = some v ∧ t.permits_[idx.toNat]? = some (v - 1))
  ∧ (∀ j : Nat, j ≠ idx.toNat → t.permits_[j]? = s.permits_[j]?)
  ∧ t.permits_.length = s.permits_.length
  ∧ t.partition_ = s.partition_
  ∧ t.interval_ = s.interval_

/-! ## Array access with an index that is a natural number -/

theorem readAt_natCast (a : List Int) (k : Nat) : readAt a (k : Int) = a[k]? := by
  simp [readAt]

theorem writeAt_natCast (a : List Int) (k : Nat) (v : Int) :
    writeAt a (k : Int) v = if k < a.length then some (a.set k v) else none := by
  unfold writeAt
  by_cases h : k < a.length
  · simp [h]
  · simp [h, Nat.le_of_not_lt h]

theorem incrAt_natCast (a : List Int) (k : Nat) (v : Int) (h : a[k]? = some v) :
    incrAt a (k : Int) = some (a.set k (v + 1)) := by
  have hk : k < a.length := by
    by_contra hc
    rw [List.getElem?_eq_none (Nat.le_of_not_lt hc)] at h
    exact Option.noConfusion h
  simp [incrAt, readAt_natCast, writeAt_natCast, h, hk]

/-! ## The constructor's remainder loop -/

theorem remainderIndices_natCast (P n : Nat) :
    remainderIndices P (n : Int)
      = (List.range (n % P)).map (fun i => ((i * (P / (n % P)) : Nat) : Int)) := by
  unfold remainderIndices
  have hr : (n : Int).tmod (P : Int) = ((n % P : Nat) : Int) := (Int.ofNat_tmod n P).symm
  simp only [hr]
  by_cases h0 : n % P = 0
  · simp [h0]
  · have hne : ((n % P : Nat) : Int) ≠ 0 := by exact_mod_cast h0
    rw [if_pos hne]
    have hs : (P : Int).tdiv ((n % P : Nat) : Int) = ((P / (n % P) : Nat) : Int) :=
      (Int.ofNat_tdiv P (n % P)).symm
    simp only [hs, Int.toNat_ofNat]
    apply List.map_congr_left
    intro i _
    push_cast
    rfl

/-- Index arithmetic of the loop: with `r = n % P > 0` and `step = P / r`, the
`k`-th subscript `k * step` stays below `P` for `k < r`. -/
theorem index_lt (P n k : Nat) (hP : 0 < P) (hk : k < n % P) :
    k * (P / (n % P)) < P := by
  have hr : 0 < n % P := Nat.lt_of_le_of_lt (Nat.zero_le k) hk
  have hrP : n % P ≤ P := Nat.le_of_lt (Nat.mod_lt n hP)
  have hstep : 0 < P / (n % P) := Nat.div_pos hrP hr
  have h1 : (k + 1) * (P / (n % P)) ≤ (n % P) * (P / (n % P)) :=
    Nat.mul_le_mul_right _ hk
  have h2 : (n % P) * (P / (n % P)) ≤ P := Nat.mul_div_le P (n % P)
  have h3 : k * (P / (n % P)) + P / (n % P) = (k + 1) * (P / (n % P)) := by ring
  omega

theorem step_pos (P n : Nat) (hP : 0 < P) (hr : 0 < n % P) : 0 < P / (n % P) :=
  Nat.div_pos (Nat.le_of_lt (Nat.mod_lt n hP)) hr

/-- Membership among the first `k` loop subscripts, stated by divisibility. -/
theorem mark_succ (step j k : Nat) (hs : 0 < step) :
    (j % step = 0 ∧ j / step < k + 1) ↔ ((j % step = 0 ∧ j / step < k) ∨ j = k * step) := by
  constructor
  · rintro ⟨hm, hd⟩
    by_cases hk : j / step < k
    · exact Or.inl ⟨hm, hk⟩
    · right
      have hq : j / step = k := by omega
      have := Nat.div_add_mod j step
      rw [hm, hq, Nat.add_zero, Nat.mul_comm] at this
      exact this.symm
  · rintro (⟨hm, hd⟩ | rfl)
    · exact ⟨hm, Nat.lt_succ_of_lt hd⟩
    · refine ⟨Nat.mul_mod_left k step, ?_⟩
      rw [Nat.mul_div_cancel k hs]
      exact Nat.lt_succ_self k

/-- Loop invariant of the remainder loop after `k` iterations: the array keeps
its length, its sum has grown by `k`, and exactly the subscripts `i * step`,
`i < k`, hold `avg + 1`. -/
theorem loop_invariant (P n : Nat) (avg : Int) (hP : 0 < P) (k : Nat) (hk : k ≤ n % P) :
    ∃ a : List Int,
      ((List.range k).map (fun i => ((i * (P / (n % P)) : Nat) : Int))).foldlM incrAt
          (List.replicate P avg) = some a
      ∧ a.length = P
      ∧ a.sum = (P : Int) * avg + k
      ∧ ∀ j, j < P →
          a[j]? = some (avg + if j % (P / (n % P)) = 0 ∧ j / (P / (n % P)) < k then 1 else 0) := by
  induction k with
  | zero =>
    refine ⟨List.replicate P avg, rfl, by simp, by simp, ?_⟩
    intro j hj
    simp [List.getElem?_replicate, hj]
  | succ k ih =>
    obtain ⟨a, hrun, hlen, hsum, hget⟩ := ih (Nat.le_of_succ_le hk)
    have hkr : k < n % P := hk
    have hs : 0 < P / (n % P) := step_pos P n hP (Nat.lt_of_le_of_lt (Nat.zero_le k) hkr)
    have hidx : k * (P / (n % P)) < P := index_lt P n k hP hkr
    have hcur : a[k * (P / (n % P))]? = some avg := by
      rw [hget _ hidx]
      have : ¬ (k * (P / (n % P)) % (P / (n % P)) = 0 ∧ k * (P / (n % P)) / (P / (n % P)) < k) := by
        intro h
        have h2 := h.2
        rw [Nat.mul_div_cancel k hs] at h2
        exact Nat.lt_irrefl k h2
      rw [if_neg this, add_zero]
    refine ⟨a.set (k * (P / (n % P))) (avg + 1), ?_, by simp [hlen], ?_, ?_⟩
    · rw [List.range_succ, List.map_append, List.foldlM_append, hrun]
      simp only [List.map_cons, List.map_nil, List.foldlM_cons, List.foldlM_nil,
        Option.bind_eq_bind, Option.some_bind, incrAt_natCast a _ avg hcur]
      rfl
    · have hlt : k * (P / (n % P)) < a.length := by omega
      have hv : a[k * (P / (n % P))] = avg := by
        have := List.getElem?_eq_getElem hlt
        rw [hcur] at this
        exact (Option.some.inj this).symm
      rw [List.sum_set', dif_pos hlt, hv, hsum]
      push_cast
      ring
    · intro j hj
      rw [List.getElem?_set]
      by_cases hjk : k * (P / (n % P)) = j
      · have hlt : k * (P / (n % P)) < a.length := by omega
        have hm : j % (P / (n % P)) = 0 ∧ j / (P / (n % P)) < k + 1 :=
          (mark_succ _ j k hs).2 (Or.inr hjk.symm)
        simp [hjk, hm, hlen, hj]
      · rw [if_neg hjk, hget j hj]
        have hiff := mark_succ (P / (n % P)) j k hs
        by_cases hm : j % (P / (n % P)) = 0 ∧ j / (P / (n % P)) < k
        · have hm2 := hiff.2 (Or.inl hm)
          simp [hm, hm2]
        · have hm2 : ¬ (j % (P / (n % P)) = 0 ∧ j / (P / (n % P)) < k + 1) := by
            intro h
            rcases hiff.1 h with h1 | h1
            · exact hm h1
            · exact hjk h1.symm
          simp [hm, hm2]

/-- Closed description of the constructed limiter for a non-negative budget. -/
theorem constructor_spec (P n : Nat) (hP : 0 < P) :
    ∃ q : List Int,
      RateLimiter P (n : Int) = some ⟨q, q, (1000 : Int).tdiv P⟩
      ∧ q.length = P
      ∧ q.sum = (n : Int)
      ∧ ∀ j, j < P →
          q[j]? = some (((n / P : Nat) : Int)
            + if j % (P / (n % P)) = 0 ∧ j / (P / (n % P)) < n % P then 1 else 0) := by
  obtain ⟨a, hrun, hlen, hsum, hget⟩ :=
    loop_invariant P n ((n / P : Nat) : Int) hP (n % P) (Nat.le_refl _)
  refine ⟨a, ?_, hlen, ?_, hget⟩
  · unfold RateLimiter
    rw [if_neg (Nat.pos_iff_ne_zero.1 hP)]
    have havg : (n : Int).tdiv (P : Int) = ((n / P : Nat) : Int) := (Int.ofNat_tdiv n P).symm
    simp only [remainderIndices_natCast, havg, hrun]
  · rw [hsum]
    have := Nat.div_add_mod n P
    have h2 : ((P * (n / P) + n % P : Nat) : Int) = (n : Int) := by rw [this]
    push_cast at h2
    exact h2

/-! ## Shape of a constructed limiter -/

theorem readAt_some (a : List Int) (idx v : Int) (h : readAt a idx = some v) :
    0 ≤ idx ∧ idx.toNat < a.length ∧ a[idx.toNat]? = some v := by
  unfold readAt at h
  by_cases hneg : idx < 0
  · rw [if_pos hneg] at h
    exact Option.noConfusion h
  · rw [if_neg hneg] at h
    refine ⟨Int.not_lt.1 hneg, ?_, h⟩
    by_contra hc
    rw [List.getElem?_eq_none (Nat.le_of_not_lt hc)] at h
    exact Option.noConfusion h

theorem writeAt_some (a b : List Int) (idx v : Int) (h : writeAt a idx v = some b) :
    0 ≤ idx ∧ idx.toNat < a.length ∧ b = a.set idx.toNat v := by
  unfold writeAt at h
  by_cases hc : idx < 0 ∨ a.length ≤ idx.toNat
  · rw [if_pos hc] at h
    exact Option.noConfusion h
  · rw [if_neg hc] at h
    have hc2 := not_or.1 hc
    exact ⟨Int.not_lt.1 hc2.1, Nat.lt_of_not_le hc2.2, (Option.some.inj h).symm⟩

theorem incrAt_length (a b : List Int) (idx : Int) (h : incrAt a idx = some b) :
    b.length = a.length := by
  unfold incrAt at h
  cases hr : readAt a idx with
  | none =>
    rw [hr] at h
    exact Option.noConfusion h
  | some v =>
    rw [hr] at h
    obtain ⟨_, _, rfl⟩ := writeAt_some a b idx (v + 1) h
    simp

theorem foldlM_incrAt_length (l : List Int) (a b : List Int)
    (h : l.foldlM incrAt a = some b) : b.length = a.length := by
  induction l generalizing a with
  | nil =>
    have : a = b := Option.some.inj h
    rw [this]
  | cons x xs ih =>
    rw [List.foldlM_cons] at h
    cases hx : incrAt a x with
    | none =>
      rw [hx] at h
      exact Option.noConfusion h
    | some a1 =>
      rw [hx] at h
      rw [ih a1 h, incrAt_length a a1 x hx]

/-- A limiter that the constructor returns has two arrays of `PARTITION`
entries, `permits_` equal to `partition_`, and `interval_ = 1000 / PARTITION`. -/
theorem constructor_shape (P : Nat) (permit : Int) (s : State)
    (h : RateLimiter P permit = some s) :
    s.WF P ∧ s.permits_ = s.partition_ ∧ s.interval_ = (1000 : Int).tdiv P := by
  unfold RateLimiter at h
  by_cases hP : P = 0
  · rw [if_pos hP] at h
    exact Option.noConfusion h
  · rw [if_neg hP] at h
    simp only at h
    cases hf : (remainderIndices P permit).foldlM incrAt (List.replicate P (permit.tdiv P)) with
    | none =>
      rw [hf] at h
      exact Option.noConfusion h
    | some q =>
      rw [hf] at h
      have hs := Option.some.inj h
      have hlen := foldlM_incrAt_length _ _ _ hf
      rw [List.length_replicate] at hlen
      subst hs
      exact ⟨⟨hlen, hlen⟩, rfl, rfl⟩

/-- With a zero budget the remainder loop does not run and every entry is zero. -/
theorem constructor_zero (P : Nat) (hP : 0 < P) :
    RateLimiter P 0
      = some ⟨List.replicate P 0, List.replicate P 0, (1000 : Int).tdiv P⟩ := by
  unfold RateLimiter
  rw [if_neg (Nat.pos_iff_ne_zero.1 hP)]
  have hidx : remainderIndices P 0 = [] := by
    unfold remainderIndices
    simp
  simp only [hidx, List.foldlM_nil, Int.zero_tdiv]

/-- Subscripts marked by divisibility are the multiples `k * step`, `k < r`. -/
theorem mark_iff (P n j : Nat) (hP : 0 < P) :
    (j % (P / (n % P)) = 0 ∧ j / (P / (n % P)) < n % P)
      ↔ (0 < n % P ∧ ∃ k : Nat, k < n % P ∧ j = k * (P / (n % P))) := by
  constructor
  · rintro ⟨hm, hd⟩
    have hr : 0 < n % P := Nat.lt_of_le_of_lt (Nat.zero_le _) hd
    refine ⟨hr, j / (P / (n % P)), hd, ?_⟩
    have := Nat.div_add_mod j (P / (n % P))
    rw [hm, Nat.add_zero, Nat.mul_comm] at this
    exact this.symm
  · rintro ⟨hr, k, hk, rfl⟩
    have hs := step_pos P n hP hr
    refine ⟨Nat.mul_mod_left k _, ?_⟩
    rw [Nat.mul_div_cancel k hs]
    exact hk

/-! ## `slot`, `decrement` and the zero-budget limiter -/

/-- Value of `slot()` when `interval_ = 1000 / P` with `0 < P <= 1000` and the
clock reading is not negative. -/
theorem slot_of_interval (P : Nat) (ms : Int) (s : State) (hP : 0 < P)
    (hP1000 : P ≤ 1000) (hms : 0 ≤ ms) (hint : s.interval_ = (1000 : Int).tdiv P) :
    s.interval_ = 1000 / P
    ∧ (1000 : Int) / P ≠ 0
    ∧ slot P s ms = some (ms / (1000 / P) % P)
    ∧ 0 ≤ ms / (1000 / P) % P
    ∧ ms / (1000 / P) % P < P := by
  have hPz : (0 : Int) < (P : Int) := by exact_mod_cast hP
  have hi : (1000 : Int).tdiv P = 1000 / P :=
    Int.tdiv_eq_ediv (by decide) (Int.le_of_lt hPz)
  have hnat : (1000 : Int) / (P : Int) = ((1000 / P : Nat) : Int) := by norm_cast
  have hipos : (0 : Int) < 1000 / (P : Int) := by
    rw [hnat]
    exact_mod_cast Nat.div_pos hP1000 hP
  have hq : 0 ≤ ms / (1000 / (P : Int)) := Int.ediv_nonneg hms (Int.le_of_lt hipos)
  have hlo : 0 ≤ ms / (1000 / (P : Int)) % P := Int.emod_nonneg _ (Int.ne_of_gt hPz)
  have hhi : ms / (1000 / (P : Int)) % P < P := Int.emod_lt_of_pos _ hPz
  refine ⟨by rw [hint, hi], Int.ne_of_gt hipos, ?_, hlo, hhi⟩
  unfold slot
  rw [hint, hi]
  have hne : ¬ ((1000 : Int) / P = 0 ∨ P = 0) := by
    intro h
    rcases h with h | h
    · exact Int.ne_of_gt hipos h
    · exact Nat.pos_iff_ne_zero.1 hP h
  rw [if_neg hne, Int.tdiv_eq_ediv hms (Int.le_of_lt hipos),
    Int.tmod_eq_emod hq (Int.le_of_lt hPz)]

theorem decrement_some (s t : State) (idx : Int) (h : decrement s idx = some t) :
    DecrementsOnly s t idx := by
  unfold decrement at h
  cases hr : readAt s.permits_ idx with
  | none =>
    rw [hr] at h
    exact Option.noConfusion h
  | some v =>
    rw [hr] at h
    simp only at h
    cases hw : writeAt s.permits_ idx (v - 1) with
    | none =>
      rw [hw] at h
      exact Option.noConfusion h
    | some p =>
      rw [hw] at h
      have ht := Option.some.inj h
      obtain ⟨h0, hlt, hget⟩ := readAt_some _ _ _ hr
      obtain ⟨_, _, hp⟩ := writeAt_some _ _ _ _ hw
      subst ht
      subst hp
      refine ⟨h0, hlt, ⟨v, hget, ?_⟩, ?_, by simp, rfl, rfl⟩
      · simp [List.getElem?_set, hlt]
      · intro j hj
        simp [List.getElem?_set, Ne.symm hj]

theorem acquireWake_returned (P : Nat) (s t : State) (ms1 ms2 idx : Int)
    (h : acquireWake P s ms1 ms2 = .returned t idx) : DecrementsOnly s t idx := by
  unfold acquireWake at h
  cases h1 : slot P s ms1 with
  | none => rw [h1] at h; exact Outcome.noConfusion h
  | some idx1 =>
    rw [h1] at h
    simp only at h
    cases h2 : readAt s.permits_ idx1 with
    | none => rw [h2] at h; exact Outcome.noConfusion h
    | some v =>
      rw [h2] at h
      simp only at h
      by_cases hv : v > 0
      · rw [if_pos hv] at h
        cases h3 : slot P s ms2 with
        | none => rw [h3] at h; exact Outcome.noConfusion h
        | some idx2 =>
          rw [h3] at h
          simp only at h
          cases h4 : decrement s idx2 with
          | none => rw [h4] at h; exact Outcome.noConfusion h
          | some s2 =>
            rw [h4] at h
            simp only at h
            injection h with hs hi
            subst hs
            subst hi
            exact decrement_some _ _ _ h4
      · rw [if_neg hv] at h
        exact Outcome.noConfusion h

/-- Fast path of `acquire`: the slot read at entry holds a positive count. -/
theorem acquire_fast (P : Nat) (s : State) (ms0 ms1 ms2 i v : Int)
    (hslot : slot P s ms0 = some i) (hread : readAt s.permits_ i = some v) (hv : 0 < v) :
    ∃ t : State, decrement s i = some t ∧ acquire P s ms0 ms1 ms2 = .returned t i := by
  obtain ⟨h0, hlt, _⟩ := readAt_some _ _ _ hread
  have hw : writeAt s.permits_ i (v - 1) = some (s.permits_.set i.toNat (v - 1)) := by
    unfold writeAt
    rw [if_neg]
    intro hc
    rcases hc with hc | hc
    · exact absurd h0 (Int.not_le.2 hc)
    · exact absurd hlt (Nat.not_lt.2 hc)
  have hd : decrement s i = some { s with permits_ := s.permits_.set i.toNat (v - 1) } := by
    simp only [decrement, hread, hw]
  refine ⟨_, hd, ?_⟩
  unfold acquire
  simp only [hslot, hread, hd]
  rw [if_pos hv]

theorem acquire_returned (P : Nat) (s t : State) (ms0 ms1 ms2 idx : Int)
    (h : acquire P s ms0 ms1 ms2 = .returned t idx) : DecrementsOnly s t idx := by
  unfold acquire at h
  cases h1 : slot P s ms0 with
  | none => rw [h1] at h; exact Outcome.noConfusion h
  | some idx0 =>
    rw [h1] at h
    simp only at h
    cases h2 : readAt s.permits_ idx0 with
    | none => rw [h2] at h; exact Outcome.noConfusion h
    | some v =>
      rw [h2] at h
      simp only at h
      by_cases hv : v > 0
      · rw [if_pos hv] at h
        cases h4 : decrement s idx0 with
        | none => rw [h4] at h; exact Outcome.noConfusion h
        | some s1 =>
          rw [h4] at h
          simp only at h
          injection h with hs hi
          subst hs
          subst hi
          exact decrement_some _ _ _ h4
      · rw [if_neg hv] at h
        exact acquireWake_returned P s t ms1 ms2 idx h

theorem readAt_replicate_zero (P : Nat) (idx v : Int)
    (h : readAt (List.replicate P 0) idx = some v) : v = 0 := by
  obtain ⟨_, hlt, hget⟩ := readAt_some _ _ _ h
  rw [List.length_replicate] at hlt
  rw [List.getElem?_replicate, if_pos hlt] at hget
  exact (Option.some.inj hget).symm

theorem acquireWake_zero (P : Nat) (c ms1 ms2 : Int) :
    acquireWake P ⟨List.replicate P 0, List.replicate P 0, c⟩ ms1 ms2 = .blocked
      ∨ acquireWake P ⟨List.replicate P 0, List.replicate P 0, c⟩ ms1 ms2 = .undefined := by
  unfold acquireWake
  cases h1 : slot P ⟨List.replicate P 0, List.replicate P 0, c⟩ ms1 with
  | none => exact Or.inr rfl
  | some idx1 =>
    simp only
    cases h2 : readAt (List.replicate P 0) idx1 with
    | none => exact Or.inr rfl
    | some v =>
      have hv := readAt_replicate_zero P idx1 v h2
      subst hv
      exact Or.inl rfl

theorem acquire_zero (P : Nat) (c ms0 ms1 ms2 : Int) :
    acquire P ⟨List.replicate P 0, List.replicate P 0, c⟩ ms0 ms1 ms2 = .blocked
      ∨ acquire P ⟨List.replicate P 0, List.replicate P 0, c⟩ ms0 ms1 ms2 = .undefined := by
  unfold acquire
  cases h1 : slot P ⟨List.replicate P 0, List.replicate P 0, c⟩ ms0 with
  | none => exact Or.inr rfl
  | some idx0 =>
    simp only
    cases h2 : readAt (List.replicate P 0) idx0 with
    | none => exact Or.inr rfl
    | some v =>
      have hv := readAt_replicate_zero P idx0 v h2
      subst hv
      exact acquireWake_zero P c ms1 ms2

theorem tick_zero (P : Nat) (c ms : Int) (t : State)
    (h : tick P ⟨List.replicate P 0, List.replicate P 0, c⟩ ms = some t) :
    t = ⟨List.replicate P 0, List.replicate P 0, c⟩ := by
  unfold tick at h
  cases h1 : slot P ⟨List.replicate P 0, List.replicate P 0, c⟩ ms with
  | none => rw [h1] at h; exact Option.noConfusion h
  | some idx =>
    rw [h1] at h
    simp only [replenish] at h
    cases h2 : readAt (List.replicate P 0) idx with
    | none => rw [h2] at h; exact Option.noConfusion h
    | some q =>
      have hq := readAt_replicate_zero P idx q h2
      subst hq
      rw [h2] at h
      simp only at h
      cases h3 : writeAt (List.replicate P 0) idx 0 with
      | none => rw [h3] at h; exact Option.noConfusion h
      | some p =>
        rw [h3] at h
        obtain ⟨_, _, hp⟩ := writeAt_some _ _ _ _ h3
        rw [List.set_replicate_self] at hp
        subst hp
        exact (Option.some.inj h).symm

theorem step_zero (P : Nat) (c : Int) (e : Event) (t : State)
    (h : step P ⟨List.replicate P 0, List.replicate P 0, c⟩ e = some t) :
    t = ⟨List.replicate P 0, List.replicate P 0, c⟩ := by
  cases e with
  | tick ms => exact tick_zero P c ms t h
  | acquire ms0 ms1 ms2 =>
    simp only [step, Event.outcome] at h
    rcases acquire_zero P c ms0 ms1 ms2 with hb | hu
    · rw [hb] at h
      exact (Option.some.inj h).symm
    · rw [hu] at h
      exact Option.noConfusion h
  | wake ms1 ms2 =>
    simp only [step, Event.outcome] at h
    rcases acquireWake_zero P c ms1 ms2 with hb | hu
    · rw [hb] at h
      exact (Option.some.inj h).symm
    · rw [hu] at h
      exact Option.noConfusion h

theorem run_zero (P : Nat) (c : Int) (evs : List Event) (t : State)
    (h : run P ⟨List.replicate P 0, List.replicate P 0, c⟩ evs = some t) :
    t = ⟨List.replicate P 0, List.replicate P 0, c⟩ := by
  induction evs with
  | nil => exact (Option.some.inj h).symm
  | cons e es ih =>
    unfold run at h
    cases hs : step P ⟨List.replicate P 0, List.replicate P 0, c⟩ e with
    | none => rw [hs] at h; exact Option.noConfusion h
    | some s1 =>
      rw [hs] at h
      simp only at h
      rw [step_zero P c e s1 hs] at h
      exact ih h

/-- With valid slots the zero-budget limiter suspends the caller. -/
theorem acquireWake_zero_blocked (P : Nat) (ms1 ms2 : Int) (hP : 0 < P) (hP1000 : P ≤ 1000)
    (h1 : 0 ≤ ms1) :
    acquireWake P ⟨List.replicate P 0, List.replicate P 0, (1000 : Int).tdiv P⟩ ms1 ms2
      = .blocked := by
  obtain ⟨_, _, hslot, hlo, hhi⟩ :=
    slot_of_interval P ms1 ⟨List.replicate P 0, List.replicate P 0, (1000 : Int).tdiv P⟩
      hP hP1000 h1 rfl
  have hidx : (ms1 / (1000 / (P : Int)) % P).toNat < P := by
    have := Int.toNat_of_nonneg hlo
    omega
  have hread : readAt (List.replicate P 0) (ms1 / (1000 / (P : Int)) % P) = some 0 := by
    unfold readAt
    rw [if_neg (Int.not_lt.2 hlo), List.getElem?_replicate, if_pos hidx]
  unfold acquireWake
  simp only [hslot, hread]
  rfl

theorem acquire_zero_blocked (P : Nat) (ms0 ms1 ms2 : Int) (hP : 0 < P) (hP1000 : P ≤ 1000)
    (h0 : 0 ≤ ms0) (h1 : 0 ≤ ms1) :
    acquire P ⟨List.replicate P 0, List.replicate P 0, (1000 : Int).tdiv P⟩ ms0 ms1 ms2
      = .blocked := by
  obtain ⟨_, _, hslot, hlo, hhi⟩ :=
    slot_of_interval P ms0 ⟨List.replicate P 0, List.replicate P 0, (1000 : Int).tdiv P⟩
      hP hP1000 h0 rfl
  have hidx : (ms0 / (1000 / (P : Int)) % P).toNat < P := by
    have := Int.toNat_of_nonneg hlo
    omega
  have hread : readAt (List.replicate P 0) (ms0 / (1000 / (P : Int)) % P) = some 0 := by
    unfold readAt
    rw [if_neg (Int.not_lt.2 hlo), List.getElem?_replicate, if_pos hidx]
  unfold acquire
  simp only [hslot, hread]
  exact acquireWake_zero_blocked P ms1 ms2 hP hP1000 h1

/-! ## Claims about the constructor -/

/-- C1: for every permit budget `total >= 0` and partition count `P > 0` the
constructor succeeds and the quota array `partition_` it builds has `P` entries
whose sum is exactly `total`. -/
theorem quota_sum_eq_permit (P : Nat) (total : Int) (hP : 0 < P) (ht : 0 ≤ total) :
    ∃ s : State, RateLimiter P total = some s
      ∧ s.partition_.length = P ∧ s.partition_.sum = total := by
  lift total to ℕ using ht with n
  obtain ⟨q, hq, hlen, hsum, _⟩ := constructor_spec P n hP
  exact ⟨_, hq, hlen, hsum⟩

theorem quota_sum_eq_permit_witness :
    ∃ s : State, RateLimiter 5 7 = some s
      ∧ s.partition_.length = 5 ∧ s.partition_.sum = 7 :=
  quota_sum_eq_permit 5 7 (by decide) (by decide)

/-- C2: for every `total >= 0` and `P > 0`, with `avg = total / P`,
`r = total % P` and `stride = P / r`, entry `j < P` of the quota array is
`avg + 1` when `r > 0` and `j = k * stride` for some `0 <= k < r`, and `avg`
otherwise; the quota for `(7, 5)` is `[2, 1, 2, 1, 1]` and the quota for
`(500, 5)` is `[100, 100, 100, 100, 100]`. -/
theorem quota_placement (P : Nat) (total : Int) (hP : 0 < P) (ht : 0 ≤ total) :
    (∃ s : State, RateLimiter P total = some s ∧ s.partition_.length = P ∧
      ∀ j : Nat, j < P →
        ((0 < total % P ∧ ∃ k : Nat, (k : Int) < total % P ∧ (j : Int) = k * (P / (total % P)))
            → s.partition_[j]? = some (total / P + 1))
        ∧ (¬ (0 < total % P ∧ ∃ k : Nat, (k : Int) < total % P ∧ (j : Int) = k * (P / (total % P)))
            → s.partition_[j]? = some (total / P)))
    ∧ RateLimiter 5 7 = some ⟨[2, 1, 2, 1, 1], [2, 1, 2, 1, 1], 200⟩
    ∧ RateLimiter 5 500
        = some ⟨[100, 100, 100, 100, 100], [100, 100, 100, 100, 100], 200⟩ := by
  refine ⟨?_, by decide, by decide⟩
  lift total to ℕ using ht with n
  obtain ⟨q, hq, hlen, _, hget⟩ := constructor_spec P n hP
  refine ⟨_, hq, hlen, ?_⟩
  intro j hj
  have hmod : (n : Int) % (P : Int) = ((n % P : Nat) : Int) := by norm_cast
  have hdiv : (n : Int) / (P : Int) = ((n / P : Nat) : Int) := by norm_cast
  have hstep : (P : Int) / ((n % P : Nat) : Int) = ((P / (n % P) : Nat) : Int) := by norm_cast
  have hcond : (0 < (n : Int) % P ∧ ∃ k : Nat, (k : Int) < (n : Int) % P
        ∧ (j : Int) = k * (P / ((n : Int) % P)))
      ↔ (j % (P / (n % P)) = 0 ∧ j / (P / (n % P)) < n % P) := by
    rw [mark_iff P n j hP, hmod, hstep]
    constructor
    · rintro ⟨h0, k, hk, hjk⟩
      exact ⟨by exact_mod_cast h0, k, by exact_mod_cast hk, by exact_mod_cast hjk⟩
    · rintro ⟨h0, k, hk, hjk⟩
      exact ⟨by exact_mod_cast h0, k, by exact_mod_cast hk, by exact_mod_cast hjk⟩
  rw [hcond, hdiv, hget j hj]
  constructor
  · intro h
    rw [if_pos h]
  · intro h
    rw [if_neg h, add_zero]

theorem quota_placement_witness :
    (∃ s : State, RateLimiter 5 7 = some s ∧ s.partition_.length = 5 ∧
      ∀ j : Nat, j < 5 →
        ((0 < (7 : Int) % (5 : Nat) ∧ ∃ k : Nat, (k : Int) < (7 : Int) % (5 : Nat)
              ∧ (j : Int) = k * ((5 : Nat) / ((7 : Int) % (5 : Nat))))
            → s.partition_[j]? = some ((7 : Int) / (5 : Nat) + 1))
        ∧ (¬ (0 < (7 : Int) % (5 : Nat) ∧ ∃ k : Nat, (k : Int) < (7 : Int) % (5 : Nat)
              ∧ (j : Int) = k * ((5 : Nat) / ((7 : Int) % (5 : Nat))))
            → s.partition_[j]? = some ((7 : Int) / (5 : Nat))))
    ∧ RateLimiter 5 7 = some ⟨[2, 1, 2, 1, 1], [2, 1, 2, 1, 1], 200⟩
    ∧ RateLimiter 5 500
        = some ⟨[100, 100, 100, 100, 100], [100, 100, 100, 100, 100], 200⟩ :=
  quota_placement 5 7 (by decide) (by decide)

/-- C3: for every `total >= 0` and `P > 0`, every entry `i < P` of the quota
array is `total / P` or `total / P + 1`. -/
theorem quota_entry_avg_or_succ (P : Nat) (total : Int) (hP : 0 < P) (ht : 0 ≤ total) :
    ∃ s : State, RateLimiter P total = some s ∧ s.partition_.length = P ∧
      ∀ i : Nat, i < P →
        s.partition_[i]? = some (total / P) ∨ s.partition_[i]? = some (total / P + 1) := by
  lift total to ℕ using ht with n
  obtain ⟨q, hq, hlen, _, hget⟩ := constructor_spec P n hP
  refine ⟨_, hq, hlen, ?_⟩
  intro i hi
  have hdiv : (n : Int) / (P : Int) = ((n / P : Nat) : Int) := by norm_cast
  rw [hdiv, hget i hi]
  by_cases h : i % (P / (n % P)) = 0 ∧ i / (P / (n % P)) < n % P
  · right
    rw [if_pos h]
  · left
    rw [if_neg h, add_zero]

theorem quota_entry_avg_or_succ_witness :
    ∃ s : State, RateLimiter 5 7 = some s ∧ s.partition_.length = 5 ∧
      ∀ i : Nat, i < 5 →
        s.partition_[i]? = some ((7 : Int) / (5 : Nat))
          ∨ s.partition_[i]? = some ((7 : Int) / (5 : Nat) + 1) :=
  quota_entry_avg_or_succ 5 7 (by decide) (by decide)

/-- C10: for every `total >= 0` and `P > 0` with `r = total % P > 0` and
`step = P / r`, the subscripts written by the remainder loop are exactly
`i * step` for `0 <= i < r`, each lies in `0 .. P-1`, the `r` subscripts are
pairwise distinct, and the constructor completes without an out-of-bounds
write. -/
theorem remainder_indices_in_bounds_distinct (P : Nat) (total : Int) (hP : 0 < P)
    (ht : 0 ≤ total) (hr : 0 < total % P) :
    remainderIndices P total
        = (List.range (total % P).toNat).map (fun (i : Nat) => (i : Int) * (P / (total % P)))
    ∧ (∀ idx ∈ remainderIndices P total, 0 ≤ idx ∧ idx < P)
    ∧ (remainderIndices P total).Nodup
    ∧ (remainderIndices P total).length = (total % P).toNat
    ∧ ∃ s : State, RateLimiter P total = some s := by
  lift total to ℕ using ht with n
  have hmod : (n : Int) % (P : Int) = ((n % P : Nat) : Int) := by norm_cast
  have hstep : (P : Int) / ((n % P : Nat) : Int) = ((P / (n % P) : Nat) : Int) := by norm_cast
  have hrn : 0 < n % P := by
    rw [hmod] at hr
    exact_mod_cast hr
  have hs := step_pos P n hP hrn
  rw [remainderIndices_natCast, hmod, hstep, Int.toNat_ofNat]
  refine ⟨?_, ?_, ?_, by simp, ?_⟩
  · apply List.map_congr_left
    intro i _
    push_cast
    rfl
  · intro idx hidx
    obtain ⟨i, hi, rfl⟩ := List.mem_map.1 hidx
    have hlt := index_lt P n i hP (List.mem_range.1 hi)
    exact ⟨Int.ofNat_nonneg _, by exact_mod_cast hlt⟩
  · apply List.Nodup.map _ (List.nodup_range _)
    intro a b hab
    have h1 : a * (P / (n % P)) = b * (P / (n % P)) := Int.ofNat.inj hab
    exact Nat.eq_of_mul_eq_mul_right hs h1
  · obtain ⟨q, hq, _⟩ := constructor_spec P n hP
    exact ⟨_, hq⟩

theorem remainder_indices_in_bounds_distinct_witness :
    remainderIndices 5 7
        = (List.range ((7 : Int) % (5 : Nat)).toNat).map
            (fun (i : Nat) => (i : Int) * ((5 : Nat) / ((7 : Int) % (5 : Nat))))
    ∧ (∀ idx ∈ remainderIndices 5 7, 0 ≤ idx ∧ idx < (5 : Nat))
    ∧ (remainderIndices 5 7).Nodup
    ∧ (remainderIndices 5 7).length = ((7 : Int) % (5 : Nat)).toNat
    ∧ ∃ s : State, RateLimiter 5 7 = some s :=
  remainder_indices_in_bounds_distinct 5 7 (by decide) (by decide) (by decide)

/-! ## Claims about `tick`, `slot` and `acquire` -/

/-- C7: for every state with `P`-element arrays and every slot index
`idx < P`, the critical section of `tick` succeeds and leaves
`permits_[idx] = partition_[idx]`, every other entry of `permits_` unchanged
and `partition_` (and `interval_`) unchanged; `tick` at a clock reading whose
slot is `idx` is exactly this update. -/
theorem replenish_frame (P : Nat) (s : State) (idx : Nat) (hwf : s.WF P) (hidx : idx < P) :
    ∃ s1 : State, replenish s (idx : Int) = some s1
      ∧ s1.permits_[idx]? = s.partition_[idx]?
      ∧ (∃ q : Int, s1.permits_[idx]? = some q)
      ∧ (∀ j : Nat, j ≠ idx → s1.permits_[j]? = s.permits_[j]?)
      ∧ s1.permits_.length = s.permits_.length
      ∧ s1.partition_ = s.partition_
      ∧ s1.interval_ = s.interval_
      ∧ ∀ ms : Int, slot P s ms = some (idx : Int) → tick P s ms = some s1 := by
  obtain ⟨hq, hp⟩ := hwf
  have h1 : idx < s.partition_.length := by omega
  have h2 : idx < s.permits_.length := by omega
  have hread : readAt s.partition_ (idx : Int) = some s.partition_[idx] := by
    rw [readAt_natCast, List.getElem?_eq_getElem h1]
  have hwrite : writeAt s.permits_ (idx : Int) s.partition_[idx]
      = some (s.permits_.set idx s.partition_[idx]) := by
    rw [writeAt_natCast, if_pos h2]
  have hrep : replenish s (idx : Int)
      = some { s with permits_ := s.permits_.set idx s.partition_[idx] } := by
    simp only [replenish, hread, hwrite]
  refine ⟨_, hrep, ?_, ?_, ?_, by simp, rfl, rfl, ?_⟩
  · simp [List.getElem?_set, h2, List.getElem?_eq_getElem h1]
  · exact ⟨s.partition_[idx], by simp [List.getElem?_set, h2]⟩
  · intro j hj
    simp [List.getElem?_set, Ne.symm hj]
  · intro ms hms
    simp only [tick, hms, hrep]

theorem replenish_frame_witness :
    ∃ s1 : State, replenish ⟨[2, 1, 2, 1, 1], [0, 0, 1, 0, 1], 200⟩ ((2 : Nat) : Int) = some s1
      ∧ s1.permits_[2]? = ([2, 1, 2, 1, 1] : List Int)[2]?
      ∧ (∃ q : Int, s1.permits_[2]? = some q)
      ∧ (∀ j : Nat, j ≠ 2 → s1.permits_[j]? = ([0, 0, 1, 0, 1] : List Int)[j]?)
      ∧ s1.permits_.length = ([0, 0, 1, 0, 1] : List Int).length
      ∧ s1.partition_ = [2, 1, 2, 1, 1]
      ∧ s1.interval_ = 200
      ∧ ∀ ms : Int, slot 5 ⟨[2, 1, 2, 1, 1], [0, 0, 1, 0, 1], 200⟩ ms = some ((2 : Nat) : Int)
          → tick 5 ⟨[2, 1, 2, 1, 1], [0, 0, 1, 0, 1], 200⟩ ms = some s1 :=
  replenish_frame 5 ⟨[2, 1, 2, 1, 1], [0, 0, 1, 0, 1], 200⟩ 2 ⟨by decide, by decide⟩ (by decide)

/-- C8 fails for `P > 1000`: `RateLimiter<1001>` has `interval_ = 1000 / 1001 = 0`,
so `slot()` divides by zero at every clock reading (here `ms = 0`). -/
theorem slot_divides_by_zero_partition_1001 :
    (RateLimiter 1001 0).map (fun s => (s.interval_, slot 1001 s 0)) = some (0, none) := by
  rw [constructor_zero 1001 (by decide)]
  rfl

/-- C8 (amended): for every partition count `0 < P <= 1000`, every constructed
limiter and every clock reading `ms >= 0`, the tick interval `1000 / P` is not
zero, `slot()` returns `ms / (1000 / P) % P`, the result lies in `0 .. P-1`, and
it is a valid index into `partition_` and `permits_`. -/
theorem slot_valid_index (P : Nat) (permit ms : Int) (s : State) (hP : 0 < P)
    (hP1000 : P ≤ 1000) (hms : 0 ≤ ms) (hs : RateLimiter P permit = some s) :
    s.interval_ = 1000 / P
    ∧ (1000 : Int) / P ≠ 0
    ∧ slot P s ms = some (ms / (1000 / P) % P)
    ∧ 0 ≤ ms / (1000 / P) % P
    ∧ ms / (1000 / P) % P < P
    ∧ (∃ q : Int, readAt s.partition_ (ms / (1000 / P) % P) = some q)
    ∧ (∃ v : Int, readAt s.permits_ (ms / (1000 / P) % P) = some v) := by
  obtain ⟨⟨hlq, hlp⟩, _, hint⟩ := constructor_shape P permit s hs
  obtain ⟨hi, hne, hslot, hlo, hhi⟩ := slot_of_interval P ms s hP hP1000 hms hint
  have hidx : (ms / (1000 / (P : Int)) % P).toNat < P := by
    have := Int.toNat_of_nonneg hlo
    omega
  refine ⟨hi, hne, hslot, hlo, hhi, ?_, ?_⟩
  · refine ⟨s.partition_[(ms / (1000 / (P : Int)) % P).toNat], ?_⟩
    unfold readAt
    rw [if_neg (Int.not_lt.2 hlo), List.getElem?_eq_getElem]
  · refine ⟨s.permits_[(ms / (1000 / (P : Int)) % P).toNat], ?_⟩
    unfold readAt
    rw [if_neg (Int.not_lt.2 hlo), List.getElem?_eq_getElem]

theorem slot_valid_index_witness :
    (⟨[100, 100, 100, 100, 100], [100, 100, 100, 100, 100], 200⟩ : State).interval_
        = 1000 / (5 : Nat)
    ∧ (1000 : Int) / (5 : Nat) ≠ 0
    ∧ slot 5 ⟨[100, 100, 100, 100, 100], [100, 100, 100, 100, 100], 200⟩ 1234
        = some ((1234 : Int) / (1000 / (5 : Nat)) % (5 : Nat))
    ∧ 0 ≤ (1234 : Int) / (1000 / (5 : Nat)) % (5 : Nat)
    ∧ (1234 : Int) / (1000 / (5 : Nat)) % (5 : Nat) < (5 : Nat)
    ∧ (∃ q : Int, readAt [100, 100, 100, 100, 100]
          ((1234 : Int) / (1000 / (5 : Nat)) % (5 : Nat)) = some q)
    ∧ (∃ v : Int, readAt [100, 100, 100, 100, 100]
          ((1234 : Int) / (1000 / (5 : Nat)) % (5 : Nat)) = some v) :=
  slot_valid_index 5 500 1234 ⟨[100, 100, 100, 100, 100], [100, 100, 100, 100, 100], 200⟩
    (by decide) (by decide) (by decide) (by decide)

/-- C6: every `acquire` call that returns, on the fast path, after the first
evaluation of the wake predicate or after a later one, has lowered exactly one
entry of `permits_` by exactly 1 and left every other entry, `partition_` and
`interval_` unchanged; and when the slot read at entry holds a positive count,
`acquire` returns whatever the later clock readings are (it does not wait),
and the entry it decrements is that slot. -/
theorem acquire_frame (P : Nat) (s : State) (ms0 ms1 ms2 : Int) :
    (∀ (t : State) (idx : Int),
        acquire P s ms0 ms1 ms2 = .returned t idx → DecrementsOnly s t idx)
    ∧ (∀ (t : State) (idx : Int),
        acquireWake P s ms1 ms2 = .returned t idx → DecrementsOnly s t idx)
    ∧ (∀ i v : Int, slot P s ms0 = some i → readAt s.permits_ i = some v → 0 < v →
        ∃ t : State, DecrementsOnly s t i
          ∧ ∀ m1 m2 : Int, acquire P s ms0 m1 m2 = .returned t i) := by
  refine ⟨fun t idx h => acquire_returned P s t ms0 ms1 ms2 idx h,
    fun t idx h => acquireWake_returned P s t ms1 ms2 idx h, ?_⟩
  intro i v hslot hread hv
  obtain ⟨t, hd, _⟩ := acquire_fast P s ms0 ms1 ms2 i v hslot hread hv
  refine ⟨t, decrement_some s t i hd, ?_⟩
  intro m1 m2
  obtain ⟨t2, hd2, hacq⟩ := acquire_fast P s ms0 m1 m2 i v hslot hread hv
  rw [hd] at hd2
  rw [Option.some.inj hd2]
  exact hacq

theorem acquire_frame_witness :
    DecrementsOnly ⟨[2, 1, 2, 1, 1], [2, 0, 2, 1, 1], 200⟩
        ⟨[2, 1, 2, 1, 1], [2, 0, 1, 1, 1], 200⟩ 2
    ∧ DecrementsOnly ⟨[2, 1, 2, 1, 1], [2, 0, 2, 1, 1], 200⟩
        ⟨[2, 1, 2, 1, 1], [2, 0, 2, 0, 1], 200⟩ 3
    ∧ ∃ t : State, DecrementsOnly ⟨[2, 1, 2, 1, 1], [2, 0, 2, 1, 1], 200⟩ t 2
        ∧ ∀ m1 m2 : Int,
            acquire 5 ⟨[2, 1, 2, 1, 1], [2, 0, 2, 1, 1], 200⟩ 450 m1 m2 = .returned t 2 :=
  ⟨(acquire_frame 5 ⟨[2, 1, 2, 1, 1], [2, 0, 2, 1, 1], 200⟩ 450 460 470).1 _ _ (by decide),
   (acquire_frame 5 ⟨[2, 1, 2, 1, 1], [2, 0, 2, 1, 1], 200⟩ 250 450 650).2.1 _ _ (by decide),
   (acquire_frame 5 ⟨[2, 1, 2, 1, 1], [2, 0, 2, 1, 1], 200⟩ 450 460 470).2.2 2 2
     (by decide) (by decide) (by decide)⟩

/-- C9: for every `P > 0` a limiter constructed with budget 0 has an all-zero
quota (`[0,0,0,0,0]` for `P = 5`); every state reachable from it by `acquire`,
wake and `tick` steps is that same state, so every entry of `permits_` is 0,
no check `permits_[idx] > 0` succeeds, and no `acquire` call and no evaluation
of the wake predicate ever returns; for `P <= 1000` and non-negative clock
readings the caller is suspended. -/
theorem zero_budget_never_grants (P : Nat) (hP : 0 < P) :
    RateLimiter P 0 = some ⟨List.replicate P 0, List.replicate P 0, (1000 : Int).tdiv P⟩
    ∧ RateLimiter 5 0 = some ⟨[0, 0, 0, 0, 0], [0, 0, 0, 0, 0], 200⟩
    ∧ ∀ (evs : List Event) (s : State),
        run P ⟨List.replicate P 0, List.replicate P 0, (1000 : Int).tdiv P⟩ evs = some s →
          s.partition_ = List.replicate P 0
          ∧ s.permits_ = List.replicate P 0
          ∧ (∀ idx v : Int, readAt s.permits_ idx = some v → ¬ (v > 0))
          ∧ (∀ ms0 ms1 ms2 : Int,
              (acquire P s ms0 ms1 ms2).granted = none
              ∧ (acquireWake P s ms1 ms2).granted = none)
          ∧ (P ≤ 1000 → ∀ ms0 ms1 ms2 : Int, 0 ≤ ms0 → 0 ≤ ms1 →
              acquire P s ms0 ms1 ms2 = .blocked ∧ acquireWake P s ms1 ms2 = .blocked) := by
  refine ⟨constructor_zero P hP, by decide, ?_⟩
  intro evs s hrun
  have hs := run_zero P _ evs s hrun
  subst hs
  refine ⟨rfl, rfl, ?_, ?_, ?_⟩
  · intro idx v hread hv
    have := readAt_replicate_zero P idx v hread
    omega
  · intro ms0 ms1 ms2
    constructor
    · rcases acquire_zero P ((1000 : Int).tdiv P) ms0 ms1 ms2 with h | h <;> rw [h] <;> rfl
    · rcases acquireWake_zero P ((1000 : Int).tdiv P) ms1 ms2 with h | h <;> rw [h] <;> rfl
  · intro hP1000 ms0 ms1 ms2 h0 h1
    exact ⟨acquire_zero_blocked P ms0 ms1 ms2 hP hP1000 h0 h1,
      acquireWake_zero_blocked P ms1 ms2 hP hP1000 h1⟩

theorem zero_budget_never_grants_witness :
    RateLimiter 5 0
        = some ⟨List.replicate 5 0, List.replicate 5 0, (1000 : Int).tdiv (5 : Nat)⟩
    ∧ RateLimiter 5 0 = some ⟨[0, 0, 0, 0, 0], [0, 0, 0, 0, 0], 200⟩
    ∧ ∀ (evs : List Event) (s : State),
        run 5 ⟨List.replicate 5 0, List.replicate 5 0, (1000 : Int).tdiv (5 : Nat)⟩ evs
            = some s →
          s.partition_ = List.replicate 5 0
          ∧ s.permits_ = List.replicate 5 0
          ∧ (∀ idx v : Int, readAt s.permits_ idx = some v → ¬ (v > 0))
          ∧ (∀ ms0 ms1 ms2 : Int,
              (acquire 5 s ms0 ms1 ms2).granted = none
              ∧ (acquireWake 5 s ms1 ms2).granted = none)
          ∧ (5 ≤ 1000 → ∀ ms0 ms1 ms2 : Int, 0 ≤ ms0 → 0 ≤ ms1 →
              acquire 5 s ms0 ms1 ms2 = .blocked ∧ acquireWake 5 s ms1 ms2 = .blocked) :=
  zero_budget_never_grants 5 (by decide)

/-- C4 fails on the blocked path of `acquire`: on `RateLimiter<2>(1)` (quota
`[1, 0]`) one `acquire` call whose clock readings are 500 ms at entry (slot 1,
empty), 1000 ms in the wake predicate (slot 0, one permit left) and 1500 ms
before the decrement (slot 1 again) returns with `permits_ = [1, -1]`. -/
theorem acquire_reread_slot_goes_negative :
    RateLimiter 2 1 = some ⟨[1, 0], [1, 0], 500⟩
    ∧ slot 2 ⟨[1, 0], [1, 0], 500⟩ 500 = some 1
    ∧ slot 2 ⟨[1, 0], [1, 0], 500⟩ 1000 = some 0
    ∧ slot 2 ⟨[1, 0], [1, 0], 500⟩ 1500 = some 1
    ∧ acquire 2 ⟨[1, 0], [1, 0], 500⟩ 500 1000 1500 = .returned ⟨[1, 0], [1, -1], 500⟩ 1
    ∧ run 2 ⟨[1, 0], [1, 0], 500⟩ [Event.acquire 500 1000 1500]
        = some ⟨[1, 0], [1, -1], 500⟩
    ∧ readAt [1, -1] 1 = some (-1) := by
  decide

/-- C5 fails through the same re-read of `slot()`: on `RateLimiter<2>(1)`
(quota `[1, 0]`) the trace "acquire at 1000 ms takes the permit of slot 0;
acquire at 1100 ms is suspended; tick at 1499 ms refills partition 0; the
suspended caller evaluates the wake predicate at 1499 ms (slot 0) and reads
slot 1 at 1500 ms" grants one permit of partition 1, whose quota is 0 and which
was never replenished.  The single call of the C4 trace does the same. -/
theorem grants_exceed_quota_after_reread :
    RateLimiter 2 1 = some ⟨[1, 0], [1, 0], 500⟩
    ∧ run 2 ⟨[1, 0], [1, 0], 500⟩
        [Event.acquire 1000 1000 1000, Event.acquire 1100 1100 1100, Event.tick 1499,
          Event.wake 1499 1500]
        = some ⟨[1, 0], [1, -1], 500⟩
    ∧ grantsSinceReplenish 2 1 ⟨[1, 0], [1, 0], 500⟩
        [Event.acquire 1000 1000 1000, Event.acquire 1100 1100 1100, Event.tick 1499,
          Event.wake 1499 1500] 0
        = some 1
    ∧ readAt [1, 0] 1 = some 0
    ∧ grantsSinceReplenish 2 1 ⟨[1, 0], [1, 0], 500⟩ [Event.acquire 500 1000 1500] 0
        = some 1 := by
  decide

end RateLimiter
